import Mathlib

/-!
Verification of the `base::Angle` value type from `base/angle.h`
(rock-core/base-cmake).

The C++ code works on `double`; the specification quantifies over real
inputs, so the embedding models `double` as `ℝ`.  The C library functions
used by the source are modelled exactly:

* `copysign m s` returns the magnitude of `m` carrying the sign of `s`
  (over `ℝ`, zero is non-negative);
* `modf x` returns the fractional part of `x` with the integral part
  truncated toward zero, so the fractional part carries the sign of `x`.
-/

namespace BaseAngle

open Real

/-- C `copysign(mag, s)`: magnitude of `mag` with the sign of `s`. -/
noncomputable def copysign (mag s : ℝ) : ℝ :=
  if s < 0 then -|mag| else |mag|

/-- Truncation toward zero, the integral part extracted by C `modf`. -/
noncomputable def truncToZero (x : ℝ) : ℤ :=
  if 0 ≤ x then ⌊x⌋ else ⌈x⌉

/-- The fractional part returned by C `modf(x, &intp)`:
`x` minus its integral part truncated toward zero. -/
noncomputable def modf (x : ℝ) : ℝ :=
  x - (truncToZero x : ℝ)

/-- Embedding of `Angle::canonize` from `base/angle.h`:
```
if( rad > M_PI || rad <= -M_PI )
{
    double intp;
    const double side = copysign(M_PI,rad);
    rad = -side + 2*M_PI * modf( (rad-side) / (2*M_PI), &intp );
}
``` -/
noncomputable def canonize (rad : ℝ) : ℝ :=
  if rad > π ∨ rad ≤ -π then
    -(copysign π rad) + 2 * π * modf ((rad - copysign π rad) / (2 * π))
  else rad

/-- The `base::Angle` value type: a single radian-valued field. -/
structure Angle where
  rad : ℝ

namespace Angle

/-- Embedding of `Angle::fromRad`: construct from radians; the protected
constructor runs `canonize()`. -/
noncomputable def fromRad (r : ℝ) : Angle :=
  ⟨canonize r⟩

/-- Embedding of `Angle::fromDeg`: `Angle( deg / 180.0 * M_PI )`. -/
noncomputable def fromDeg (deg : ℝ) : Angle :=
  ⟨canonize (deg / 180 * π)⟩

/-- Embedding of `Angle::getRad`: the stored canonical value. -/
def getRad (a : Angle) : ℝ :=
  a.rad

/-- Embedding of `Angle::getDeg`: `rad / M_PI * 180`. -/
noncomputable def getDeg (a : Angle) : ℝ :=
  a.rad / π * 180

/-- Embedding of `Angle::rad2Deg`. -/
noncomputable def rad2Deg (r : ℝ) : ℝ :=
  r / π * 180

/-- Embedding of `Angle::deg2Rad`. -/
noncomputable def deg2Rad (deg : ℝ) : ℝ :=
  deg / 180 * π

/-- The default value of the `prec` parameter of `Angle::isApprox`. -/
noncomputable def defaultPrecision : ℝ :=
  1e-5

/-- Embedding of `Angle::isApprox`: `fabs( other.rad - rad ) < prec`. -/
def isApprox (a other : Angle) (prec : ℝ) : Prop :=
  |other.rad - a.rad| < prec

/-- Embedding of `operator+( Angle a, Angle b )`. -/
noncomputable def add (a b : Angle) : Angle :=
  fromRad (a.getRad + b.getRad)

/-- Embedding of `operator-( Angle a, Angle b )`. -/
noncomputable def sub (a b : Angle) : Angle :=
  fromRad (a.getRad - b.getRad)

/-- Embedding of `operator*( Angle a, double b )`. -/
noncomputable def mulScalar (a : Angle) (b : ℝ) : Angle :=
  fromRad (a.getRad * b)

/-- Embedding of `operator*( double a, Angle b )`. -/
noncomputable def scalarMul (a : ℝ) (b : Angle) : Angle :=
  fromRad (a * b.getRad)

end Angle

/-! ### Basic facts about the modelled C library functions -/

lemma copysign_pi_of_nonneg {s : ℝ} (h : 0 ≤ s) : copysign π s = π := by
  rw [copysign, if_neg (not_lt.mpr h), abs_of_pos Real.pi_pos]

lemma copysign_pi_of_neg {s : ℝ} (h : s < 0) : copysign π s = -π := by
  rw [copysign, if_pos h, abs_of_pos Real.pi_pos]

lemma modf_of_nonneg {x : ℝ} (h : 0 ≤ x) : modf x = x - (⌊x⌋ : ℝ) := by
  rw [modf, truncToZero, if_pos h]

lemma modf_of_nonpos {x : ℝ} (h : x ≤ 0) : modf x = x - (⌈x⌉ : ℝ) := by
  rcases lt_or_eq_of_le h with hlt | heq
  · rw [modf, truncToZero, if_neg (not_le.mpr hlt)]
  · subst heq
    simp [modf, truncToZero]

lemma canonize_of_mem {r : ℝ} (h1 : -π < r) (h2 : r ≤ π) : canonize r = r := by
  have hc : ¬(r > π ∨ r ≤ -π) := by
    push_neg
    exact ⟨h2, h1⟩
  rw [canonize, if_neg hc]

/-- On the branch `rad > π`, `canonize` subtracts the multiple of `2π`
determined by the floor of `(rad − π) / (2π)`, plus one. -/
lemma canonize_of_gt {r : ℝ} (h : π < r) :
    canonize r = r - 2 * π * ((⌊(r - π) / (2 * π)⌋ : ℝ) + 1) := by
  have hpi : (0 : ℝ) < π := Real.pi_pos
  have h0 : (0 : ℝ) ≤ r := le_of_lt (lt_trans hpi h)
  have hx : 0 ≤ (r - π) / (2 * π) := div_nonneg (by linarith) (by positivity)
  rw [canonize, if_pos (Or.inl h), copysign_pi_of_nonneg h0, modf_of_nonneg hx]
  have key : 2 * π * ((r - π) / (2 * π)) = r - π := by
    field_simp
  rw [mul_sub, key]
  ring

/-- On the branch `rad ≤ −π`, `canonize` subtracts the multiple of `2π`
determined by the ceiling of `(rad + π) / (2π)`, minus one. -/
lemma canonize_of_le_neg {r : ℝ} (h : r ≤ -π) :
    canonize r = r - 2 * π * ((⌈(r + π) / (2 * π)⌉ : ℝ) - 1) := by
  have hpi : (0 : ℝ) < π := Real.pi_pos
  have hneg : r < 0 := lt_of_le_of_lt h (by linarith)
  have hdisj : r > π ∨ r ≤ -π := Or.inr h
  rw [canonize, if_pos hdisj, copysign_pi_of_neg hneg, sub_neg_eq_add]
  have hx : (r + π) / (2 * π) ≤ 0 :=
    div_nonpos_of_nonpos_of_nonneg (by linarith) (by positivity)
  rw [modf_of_nonpos hx]
  have key : 2 * π * ((r + π) / (2 * π)) = r + π := by
    field_simp
  rw [mul_sub, key]
  ring

/-- The function `canonize` only changes its input by an integer multiple
of `2π`. -/
lemma canonize_sub_int (r : ℝ) : ∃ k : ℤ, canonize r = r - 2 * π * (k : ℝ) := by
  rcases le_or_lt r π with h1 | h1
  · rcases lt_or_le (-π) r with h2 | h2
    · exact ⟨0, by rw [canonize_of_mem h2 h1]; push_cast; ring⟩
    · refine ⟨⌈(r + π) / (2 * π)⌉ - 1, ?_⟩
      rw [canonize_of_le_neg h2]
      push_cast
      ring
  · refine ⟨⌊(r - π) / (2 * π)⌋ + 1, ?_⟩
    rw [canonize_of_gt h1]
    push_cast
    ring

/-- The output of `canonize` always lies in the closed interval `[−π, π]`
(the lower end is attained: see `canonize_three_pi`). -/
lemma canonize_mem_Icc (r : ℝ) : -π ≤ canonize r ∧ canonize r ≤ π := by
  have hpi : (0 : ℝ) < π := Real.pi_pos
  rcases le_or_lt r π with h1 | h1
  · rcases lt_or_le (-π) r with h2 | h2
    · rw [canonize_of_mem h2 h1]
      exact ⟨le_of_lt h2, h1⟩
    · rw [canonize_of_le_neg h2]
      set x : ℝ := (r + π) / (2 * π) with hxdef
      have hc1 : x ≤ (⌈x⌉ : ℝ) := Int.le_ceil x
      have hc2 : (⌈x⌉ : ℝ) < x + 1 := Int.ceil_lt_add_one x
      have key : 2 * π * x = r + π := by
        rw [hxdef]; field_simp
      constructor <;> nlinarith [hc1, hc2, key]
  · rw [canonize_of_gt h1]
    set x : ℝ := (r - π) / (2 * π) with hxdef
    have hf1 : (⌊x⌋ : ℝ) ≤ x := Int.floor_le x
    have hf2 : x < (⌊x⌋ : ℝ) + 1 := Int.lt_floor_add_one x
    have key : 2 * π * x = r - π := by
      rw [hxdef]; field_simp
    constructor <;> nlinarith [hf1, hf2, key]

/-- Evaluation `canonize π = π`: `π` is inside the canonical interval. -/
lemma canonize_pi : canonize π = π :=
  canonize_of_mem (by linarith [Real.pi_pos]) le_rfl

/-- Evaluation `canonize (−π) = π`: the lower boundary wraps to `π`. -/
lemma canonize_neg_pi : canonize (-π) = π := by
  rw [canonize_of_le_neg le_rfl]
  have h0 : (-π + π) / (2 * π) = 0 := by
    rw [show -π + π = (0 : ℝ) by ring, zero_div]
  rw [h0, Int.ceil_zero]
  push_cast
  ring

/-- Evaluation `canonize (3π) = −π`: at an odd multiple of `π` above `π`, the modf
expression vanishes and the routine lands on the excluded endpoint `−π`. -/
lemma canonize_three_pi : canonize (3 * π) = -π := by
  have hpi : (0 : ℝ) < π := Real.pi_pos
  rw [canonize_of_gt (by linarith)]
  have h1 : (3 * π - π) / (2 * π) = 1 := by
    rw [show 3 * π - π = 2 * π by ring]
    field_simp
  rw [h1, Int.floor_one]
  push_cast
  ring

/-! ### Claim theorems -/

/-- C1: the claimed invariant `−π < v ≤ π` fails on the code. At the
failing input `r = 3π`, `fromRad(3π).getRad()` evaluates to `−π`, which is
outside the half-open interval `(−π, π]` documented by the class. -/
theorem C1_invariant_violated_at_three_pi :
    (Angle.fromRad (3 * π)).getRad = -π ∧
      ¬(-π < (Angle.fromRad (3 * π)).getRad) := by
  have h : (Angle.fromRad (3 * π)).getRad = -π := canonize_three_pi
  exact ⟨h, by rw [h]; exact lt_irrefl _⟩

/-- C2: for every real `r`, `fromRad(r).getRad()` differs from `r` by an
integer multiple of `2π`: canonicalization preserves the equivalence class of the angle modulo `2π`. -/
theorem C2_fromRad_congruent_mod_two_pi (r : ℝ) :
    ∃ k : ℤ, (Angle.fromRad r).getRad = r - 2 * π * (k : ℝ) :=
  canonize_sub_int r

/-- C3: boundary behavior: `fromRad(π).getRad() = π` (π is kept) and
`fromRad(−π).getRad() = π` (−π, excluded from `(−π, π]`, wraps to `+π`). -/
theorem C3_boundary_pi_and_neg_pi :
    (Angle.fromRad π).getRad = π ∧ (Angle.fromRad (-π)).getRad = π :=
  ⟨canonize_pi, canonize_neg_pi⟩

/-- C4: `isApprox(a, b, p)` holds iff `|b.getRad() − a.getRad()| < p`, the
precision parameter defaults to `1e-5`, and it is compared directly
against the radian-valued difference (no degree-to-radian conversion is
applied to it). -/
theorem C4_isApprox_strict_radian_comparison :
    (∀ (a b : Angle) (p : ℝ),
        Angle.isApprox a b p ↔ |b.getRad - a.getRad| < p) ∧
      Angle.defaultPrecision = 1e-5 := by
  exact ⟨fun a b p => Iff.rfl, rfl⟩

/-- C5: idempotence of canonicalization fails on the code. At `r = 3π`,
`fromRad(3π).getRad() = −π`, but re-canonicalizing that value yields `π`,
so `fromRad(fromRad(3π).getRad()).getRad() ≠ fromRad(3π).getRad()`. -/
theorem C5_idempotence_fails_at_three_pi :
    (Angle.fromRad (3 * π)).getRad = -π ∧
      (Angle.fromRad ((Angle.fromRad (3 * π)).getRad)).getRad = π ∧
      (Angle.fromRad ((Angle.fromRad (3 * π)).getRad)).getRad ≠
        (Angle.fromRad (3 * π)).getRad := by
  have h3 : (Angle.fromRad (3 * π)).getRad = -π := canonize_three_pi
  have h2 : (Angle.fromRad ((Angle.fromRad (3 * π)).getRad)).getRad = π := by
    show canonize ((Angle.fromRad (3 * π)).getRad) = π
    rw [h3]
    exact canonize_neg_pi
  refine ⟨h3, h2, ?_⟩
  rw [h2, h3]
  have hpi : (0 : ℝ) < π := Real.pi_pos
  intro heq
  linarith [heq]

/-- C6: angle addition wraps into the canonical interval: `add a b` is
`fromRad (a.getRad + b.getRad)`, and `fromDeg 170 + fromDeg 20` has the
same radian value as `fromDeg (−170)`. -/
theorem C6_add_wraps :
    (∀ a b : Angle, Angle.add a b = Angle.fromRad (a.getRad + b.getRad)) ∧
      (Angle.add (Angle.fromDeg 170) (Angle.fromDeg 20)).getRad =
        (Angle.fromDeg (-170)).getRad := by
  have hpi : (0 : ℝ) < π := Real.pi_pos
  refine ⟨fun a b => rfl, ?_⟩
  have h170 : canonize (170 / 180 * π) = 170 / 180 * π :=
    canonize_of_mem (by nlinarith) (by nlinarith)
  have h20 : canonize (20 / 180 * π) = 20 / 180 * π :=
    canonize_of_mem (by nlinarith) (by nlinarith)
  have hm170 : canonize (-170 / 180 * π) = -170 / 180 * π :=
    canonize_of_mem (by nlinarith) (by nlinarith)
  show canonize (canonize (170 / 180 * π) + canonize (20 / 180 * π)) =
    canonize (-170 / 180 * π)
  rw [h170, h20, hm170]
  have hsum : 170 / 180 * π + 20 / 180 * π = 190 / 180 * π := by ring
  rw [hsum, canonize_of_gt (by nlinarith)]
  have hq : (190 / 180 * π - π) / (2 * π) = 1 / 36 := by
    rw [show 190 / 180 * π - π = 10 / 180 * π by ring]
    rw [div_eq_div_iff (by positivity) (by norm_num)]
    ring
  rw [hq]
  have hfloor : ⌊(1 / 36 : ℝ)⌋ = 0 := by
    rw [Int.floor_eq_zero_iff]
    constructor <;> norm_num
  rw [hfloor]
  push_cast
  ring

/-- C7: `fromDeg d` equals `fromRad (d·π/180)`, `getDeg` returns
`getRad · 180/π`, and consequently `fromDeg(d).getDeg()` equals `d` minus
an integer multiple of `360`. -/
theorem C7_degree_conversions (d : ℝ) :
    Angle.fromDeg d = Angle.fromRad (d * π / 180) ∧
      (∀ a : Angle, a.getDeg = a.getRad * 180 / π) ∧
      ∃ k : ℤ, (Angle.fromDeg d).getDeg = d - 360 * (k : ℝ) := by
  have hpi : π ≠ 0 := Real.pi_ne_zero
  refine ⟨?_, fun a => by rw [Angle.getDeg, Angle.getRad]; ring, ?_⟩
  · rw [Angle.fromDeg, Angle.fromRad]
    exact congrArg (fun t => Angle.mk (canonize t)) (by ring)
  · obtain ⟨k, hk⟩ := canonize_sub_int (d / 180 * π)
    refine ⟨k, ?_⟩
    show canonize (d / 180 * π) / π * 180 = d - 360 * (k : ℝ)
    rw [hk]
    field_simp
    ring

/-- C8: scalar multiplication commutes in argument order: `a * k` and
`k * a` produce the same angle. -/
theorem C8_scalar_mul_commutes (a : Angle) (k : ℝ) :
    Angle.mulScalar a k = Angle.scalarMul k a := by
  rw [Angle.mulScalar, Angle.scalarMul, Angle.getRad, mul_comm]

/-- C9: approximate equality is symmetric: `isApprox a b p` holds exactly
when `isApprox b a p` does, since `|b.rad − a.rad| = |a.rad − b.rad|`. -/
theorem C9_isApprox_symmetric (a b : Angle) (p : ℝ) :
    Angle.isApprox a b p ↔ Angle.isApprox b a p := by
  rw [Angle.isApprox, Angle.isApprox, abs_sub_comm]

/-- C10: with a non-positive precision, `isApprox` never holds, because it
strictly compares a non-negative absolute difference against the
precision; in particular `isApprox a a 0` is false. -/
theorem C10_isApprox_nonpos_precision_false (a b : Angle) (p : ℝ)
    (hp : p ≤ 0) : ¬Angle.isApprox a b p := by
  rw [Angle.isApprox]
  intro h
  have habs : 0 ≤ |b.rad - a.rad| := abs_nonneg _
  linarith

/-- Witness for C10 at the concrete input `a = b = ⟨0⟩`, `p = 0`. -/
theorem C10_isApprox_nonpos_precision_false_witness :
    ¬Angle.isApprox ⟨0⟩ ⟨0⟩ 0 :=
  C10_isApprox_nonpos_precision_false ⟨0⟩ ⟨0⟩ 0 le_rfl

end BaseAngle
